import Mathlib

/-!
# Verification of the Position & Trade Reconciliation Engine

Shallow embedding, in Lean 4, of the FIFO lot-matching, trade-recording,
reconciliation, raw-fill matching, closed-P&L mapping, and execution-ingestion
logic of the multi-strategy trading platform, together with proofs of the
spec claims about those operations.

Prices, quantities and monetary amounts are modelled as rationals (`ℚ`),
timestamps as integers (seconds) or naturals (milliseconds), mirroring the
numeric values flowing through the Python source.
-/

namespace PyStr

/-- Python's `str.split(sep)` for a single-character separator, on the
character list: every occurrence of the separator starts a new field, and
the empty string yields `[""]`. -/
def splitOnChar (sep : Char) : List Char → List (List Char)
  | [] => [[]]
  | c :: cs =>
    if c = sep then [] :: splitOnChar sep cs
    else
      match splitOnChar sep cs with
      | [] => [[c]]
      | w :: ws => (c :: w) :: ws

/-- Python's `s.split(sep)` on strings (single-character separator). -/
def split (sep : Char) (s : String) : List String :=
  (splitOnChar sep s.data).map fun w => String.mk w

end PyStr

namespace Platform

/-- Order side, `'Buy'` / `'Sell'` in the source. -/
inductive Side where
  | buy
  | sell
deriving DecidableEq, Repr

/-- Status of a position entry (lot): `'open'`, `'partially_closed'`, `'closed'`. -/
inductive LotStatus where
  | isOpen
  | partiallyClosed
  | closed
deriving DecidableEq, Repr

/-- Row of `trading.position_entries` (a lot), as used by
`AlphaDBClient.create_position_entry` / `close_position_fifo`. -/
structure PositionEntry where
  entryId : String
  entryPrice : ℚ
  originalQty : ℚ
  remainingQty : ℚ
  entryTime : ℤ
  entryCommission : ℚ
  status : LotStatus
deriving DecidableEq, Repr

/-- The deterministic trade key built in `AlphaDBClient.record_completed_trade`:
`f"{self.bot_id}:{symbol}:{int(entry_time.timestamp())}:{int(exit_time.timestamp())}"`. -/
def alphaTradeId (botId symbol : String) (entryTs exitTs : ℤ) : String :=
  botId ++ ":" ++ symbol ++ ":" ++ toString entryTs ++ ":" ++ toString exitTs

/-- Row of `trading.completed_trades` as computed by
`AlphaDBClient.record_completed_trade` (the columns relevant to the claims). -/
structure CompletedTradeRow where
  tradeId : String
  botId : String
  symbol : String
  entrySide : Side
  entryPrice : ℚ
  entryQty : ℚ
  entryTime : ℤ
  entryCommission : ℚ
  exitSide : Side
  exitPrice : ℚ
  exitQty : ℚ
  exitTime : ℤ
  exitCommission : ℚ
  grossPnl : ℚ
  netPnl : ℚ
  pnlPct : ℚ
  totalCommission : ℚ
  holdingDurationSeconds : ℤ
deriving DecidableEq, Repr

/-- The P&L arithmetic of `AlphaDBClient.record_completed_trade`: gross P&L by
side (long: `(exit − entry) × qty`; short: `(entry − exit) × qty`), net P&L,
percentage return (0 when the cost basis is not positive), holding duration,
and the deterministic `trade_id`. -/
def recordCompletedTradeCalc (botId symbol : String) (entrySide : Side)
    (entryPrice entryQty : ℚ) (entryTime : ℤ)
    (exitSide : Side) (exitPrice exitQty : ℚ) (exitTime : ℤ)
    (entryCommission exitCommission : ℚ) : CompletedTradeRow :=
  let grossPnl : ℚ :=
    if entrySide = Side.buy then (exitPrice - entryPrice) * exitQty
    else (entryPrice - exitPrice) * exitQty
  let totalCommission := entryCommission + exitCommission
  let netPnl := grossPnl - totalCommission
  let costBasis := entryPrice * entryQty
  let pnlPct : ℚ := if costBasis > 0 then netPnl / costBasis * 100 else 0
  { tradeId := alphaTradeId botId symbol entryTime exitTime
    botId := botId
    symbol := symbol
    entrySide := entrySide
    entryPrice := entryPrice
    entryQty := entryQty
    entryTime := entryTime
    entryCommission := entryCommission
    exitSide := exitSide
    exitPrice := exitPrice
    exitQty := exitQty
    exitTime := exitTime
    exitCommission := exitCommission
    grossPnl := grossPnl
    netPnl := netPnl
    pnlPct := pnlPct
    totalCommission := totalCommission
    holdingDurationSeconds := exitTime - entryTime }

/-- One element of the `completed_trades` list returned by
`AlphaDBClient.close_position_fifo` (the per-slice dictionary). -/
structure CloseSlice where
  entryId : String
  entryPrice : ℚ
  exitPrice : ℚ
  quantity : ℚ
  grossPnl : ℚ
  netPnl : ℚ
  pnlPct : ℚ
deriving DecidableEq, Repr

/-- Result of a FIFO close: the returned slice dictionaries, the
`completed_trades` rows written through `record_completed_trade`, and the
updated `position_entries` rows (in query order). -/
structure FifoResult where
  slices : List CloseSlice
  rows : List CompletedTradeRow
  entries : List PositionEntry
deriving DecidableEq, Repr

/-- The per-entry loop of `AlphaDBClient.close_position_fifo`: walk the open
entries (already sorted oldest-first by the query), consuming
`min(remaining_qty, remaining_to_close)` from each, computing the slice P&L,
apportioning commissions, updating the entry row, and recording a completed
trade per slice; stop (`break`) once `remaining_to_close <= 0`. -/
def closeFifoGo (botId symbol : String) (exitPrice closeQty : ℚ) (exitTime : ℤ)
    (exitCommission : ℚ) : ℚ → List PositionEntry → FifoResult
  | _, [] => ⟨[], [], []⟩
  | remainingToClose, e :: es =>
    if remainingToClose ≤ 0 then ⟨[], [], e :: es⟩
    else
      let qtyToClose := min e.remainingQty remainingToClose
      let grossPnl := (exitPrice - e.entryPrice) * qtyToClose
      let entryCommPortion := e.entryCommission * (qtyToClose / e.originalQty)
      let exitCommPortion : ℚ :=
        if closeQty > 0 then exitCommission * (qtyToClose / closeQty) else 0
      let netPnl := grossPnl - entryCommPortion - exitCommPortion
      let costBasis := e.entryPrice * qtyToClose
      let pnlPct : ℚ := if costBasis > 0 then netPnl / costBasis * 100 else 0
      let newRemaining := e.remainingQty - qtyToClose
      let newStatus :=
        if newRemaining = 0 then LotStatus.closed else LotStatus.partiallyClosed
      let updatedEntry :=
        { e with remainingQty := newRemaining, status := newStatus }
      let row := recordCompletedTradeCalc botId symbol Side.buy
        e.entryPrice qtyToClose e.entryTime Side.sell exitPrice qtyToClose
        exitTime entryCommPortion exitCommPortion
      let slice : CloseSlice :=
        ⟨e.entryId, e.entryPrice, exitPrice, qtyToClose, grossPnl, netPnl, pnlPct⟩
      let rest := closeFifoGo botId symbol exitPrice closeQty exitTime
        exitCommission (remainingToClose - qtyToClose) es
      ⟨slice :: rest.slices, row :: rest.rows, updatedEntry :: rest.entries⟩

/-- The open-entry query of `close_position_fifo` /
`get_open_position_entries`: rows with `status != 'closed' AND
remaining_qty > 0`, ordered by `entry_time ASC` (a stable sort, as the
database produces and as Python's `sorted` would). -/
def openEntries (table : List PositionEntry) : List PositionEntry :=
  List.insertionSort (fun a b => a.entryTime ≤ b.entryTime)
    (table.filter fun e => e.status ≠ LotStatus.closed ∧ 0 < e.remainingQty)

/-- Embedding of `AlphaDBClient.close_position_fifo`: fetch open entries oldest-first and
run the FIFO consumption loop; with no open entries it returns an empty
result and leaves the table untouched. -/
def closePositionFifo (botId : String) (table : List PositionEntry)
    (symbol : String) (exitPrice closeQty : ℚ) (exitTime : ℤ)
    (exitCommission : ℚ) : FifoResult :=
  let entries := openEntries table
  match entries with
  | [] => ⟨[], [], []⟩
  | es => closeFifoGo botId symbol exitPrice closeQty exitTime exitCommission
      closeQty es

/-- Total quantity consumed by a list of close slices. -/
def sliceQtySum (slices : List CloseSlice) : ℚ :=
  (slices.map CloseSlice.quantity).sum

/-- Total remaining quantity over a list of entries. -/
def entryRemSum (entries : List PositionEntry) : ℚ :=
  (entries.map PositionEntry.remainingQty).sum

/-- Spec-side consumption rule, written from the LotMatcher contract's words:
consume open lots oldest-first (list order, the list being sorted by entry
time), taking `qty_closed = min(lot.remaining_qty, remaining_to_close)` from
each, and stop as soon as the closing quantity is exhausted or no open lots
remain. Returns the `(entry_id, qty_closed)` sequence of consumed lots, for
comparison with the source-derived `closeFifoGo`. -/
def specConsume : ℚ → List PositionEntry → List (String × ℚ)
  | _, [] => []
  | remainingToClose, e :: es =>
    if remainingToClose ≤ 0 then []
    else
      (e.entryId, min e.remainingQty remainingToClose) ::
        specConsume (remainingToClose - min e.remainingQty remainingToClose) es

/-- Upsert `ON CONFLICT (trade_id) DO UPDATE` of
`AlphaDBClient.record_completed_trade`: when a row with the same `trade_id`
exists, overwrite its `exit_price`, `exit_qty`, `exit_time`, `gross_pnl`,
`net_pnl` and `pnl_pct` with the incoming values; otherwise insert the new
row. -/
def recordCompletedTradeUpsert (table : List CompletedTradeRow)
    (row : CompletedTradeRow) : List CompletedTradeRow :=
  if table.any (fun r => r.tradeId = row.tradeId) then
    table.map fun r =>
      if r.tradeId = row.tradeId then
        { r with
            exitPrice := row.exitPrice
            exitQty := row.exitQty
            exitTime := row.exitTime
            grossPnl := row.grossPnl
            netPnl := row.netPnl
            pnlPct := row.pnlPct }
      else r
  else table ++ [row]

/-- Row of `trading.completed_trades` as written by the trade sync service
(`SyncDatabase.insert_completed_trade`): the mapped trade fields plus the
synchronization metadata columns `source` and `synced_at`. Times are Unix
milliseconds as delivered by the exchange. -/
structure SyncTradeRow where
  tradeId : String
  botId : Option String
  symbol : String
  entryOrderId : Option String
  entryClientOrderId : Option String
  entrySide : String
  entryPrice : ℚ
  entryQty : ℚ
  entryTimeMs : ℕ
  entryReason : Option String
  entryCommission : ℚ
  exitOrderId : Option String
  exitClientOrderId : Option String
  exitSide : String
  exitPrice : ℚ
  exitQty : ℚ
  exitTimeMs : ℕ
  exitReason : Option String
  exitCommission : ℚ
  grossPnl : ℚ
  netPnl : ℚ
  pnlPct : ℚ
  totalCommission : ℚ
  holdingDurationSeconds : ℕ
  source : String
  syncedAt : Option ℤ
deriving DecidableEq, Repr

/-- The financial (non-synchronization) fields of a sync row: everything but
`source` and `synced_at`. -/
def SyncTradeRow.financial (r : SyncTradeRow) : SyncTradeRow :=
  { r with source := "", syncedAt := none }

/-- Embedding of `SyncDatabase.insert_completed_trade`: insert with
`ON CONFLICT (trade_id) DO UPDATE SET synced_at = EXCLUDED.synced_at,
source = CASE WHEN existing.source = 'websocket' THEN 'websocket' ELSE
EXCLUDED.source END`, returning `(xmax = 0)` — i.e. whether a new row was
inserted. Only the synchronization metadata of an existing row is touched. -/
def insertCompletedTrade (table : List SyncTradeRow) (trade : SyncTradeRow)
    (now : ℤ) : List SyncTradeRow × Bool :=
  if table.any (fun r => r.tradeId = trade.tradeId) then
    (table.map fun r =>
      if r.tradeId = trade.tradeId then
        { r with
            syncedAt := some now
            source := if r.source = "websocket" then "websocket" else trade.source }
      else r, false)
  else (table ++ [{ trade with syncedAt := some now }], true)

/-- Spec-side definition (testable property §8, additivity): the net P&L of
"an equivalent single full close of the same quantity at the same exit
price" — one trade, computed by the recorded P&L arithmetic, closing the
total sliced quantity at the exit price against the quantity-weighted
average entry price of the slices, carrying the total apportioned entry and
exit commissions. -/
def singleFullCloseNetPnl (botId symbol : String)
    (rows : List CompletedTradeRow) (exitPrice : ℚ) : ℚ :=
  let totalQty := (rows.map CompletedTradeRow.exitQty).sum
  let weightedEntry :=
    ((rows.map fun r => r.entryPrice * r.exitQty).sum) / totalQty
  (recordCompletedTradeCalc botId symbol Side.buy weightedEntry totalQty 0
    Side.sell exitPrice totalQty 0
    ((rows.map CompletedTradeRow.entryCommission).sum)
    ((rows.map CompletedTradeRow.exitCommission).sum)).netPnl

/-- The position snapshot written to the Redis cache by
`AlphaDBClient.update_position_redis`. -/
structure PositionSnapshot where
  symbol : String
  size : ℚ
  side : String
  avgPrice : ℚ
  unrealizedPnl : ℚ
deriving DecidableEq, Repr

/-- Embedding of `_restore_position_to_redis_from_exchange`
(`src/shared/position_reconciliation.py`): compute the weighted-average entry
price across the open lots' remaining quantities
(`Σ entry_price·remaining_qty / Σ remaining_qty`, returning without writing
when the total is 0) and write a snapshot using the exchange's reported
size/side and unrealized P&L with the ledger's weighted-average price. -/
def restorePositionFromExchange (symbol : String) (entries : List PositionEntry)
    (exchangeSize : ℚ) (exchangeSide : String) (unrealisedPnl : ℚ) :
    Option PositionSnapshot :=
  let totalQty := entryRemSum entries
  if totalQty = 0 then none
  else
    let weightedAvgPrice :=
      ((entries.map fun e => e.entryPrice * e.remainingQty).sum) / totalQty
    some ⟨symbol, exchangeSize, exchangeSide, weightedAvgPrice, unrealisedPnl⟩

end Platform

namespace TradeMatcher

/-- One raw execution record as consumed by
`src/trade_sync_service/trade_matcher.py` (the fields it reads): `execTime`
is Unix milliseconds. `orderLinkId` is the client order tag, possibly
absent. -/
structure Exec where
  symbol : String
  side : String
  execTime : ℕ
  execPrice : ℚ
  execQty : ℚ
  execFee : ℚ
  orderId : Option String
  orderLinkId : Option String
deriving DecidableEq, Repr

/-- Embedding of `TradeMatcher.parse_client_order_id`: split on `':'`; three or more parts
give `(bot_id, reason, timestamp)`, exactly two give `(bot_id, reason,
None)`, anything else (including an absent or empty tag) gives
`(None, None, None)`. -/
def parse_client_order_id (clientOrderId : Option String) :
    Option String × Option String × Option String :=
  match clientOrderId with
  | none => (none, none, none)
  | some s =>
    if s = "" then (none, none, none)
    else
      match PyStr.split ':' s with
      | p0 :: p1 :: p2 :: _ => (some p0, some p1, some p2)
      | [p0, p1] => (some p0, some p1, none)
      | _ => (none, none, none)

/-- Matched trade as built by `TradeMatcher._create_matched_trade` (the
fields relevant to the claims). `tradeId` is
`f"{bot_id}_{symbol}_{int(buy_exec.get('execTime', 0))}"`; a missing bot id
renders as the string `"None"` inside the Python f-string. -/
structure MatchedTrade where
  tradeId : String
  botId : Option String
  symbol : String
  entryPrice : ℚ
  exitPrice : ℚ
  entryQty : ℚ
  exitQty : ℚ
  entryTimeMs : ℕ
  exitTimeMs : ℕ
  entryCommission : ℚ
  exitCommission : ℚ
  grossPnl : ℚ
  netPnl : ℚ
  pnlPct : ℚ
deriving DecidableEq, Repr

/-- Embedding of `TradeMatcher._create_matched_trade`: derive the bot id from the buy leg's
tag, falling back to the sell leg's; compute quantity as
`min(entry_qty, exit_qty)`, long P&L, and the trade key from the buy leg's
execution time only. -/
def create_matched_trade (buyExec sellExec : Exec) : MatchedTrade :=
  let entryBot := (parse_client_order_id buyExec.orderLinkId).1
  let exitBot := (parse_client_order_id sellExec.orderLinkId).1
  let botId := match entryBot with | some b => some b | none => exitBot
  let entryPrice := buyExec.execPrice
  let exitPrice := sellExec.execPrice
  let entryQty := buyExec.execQty
  let exitQty := sellExec.execQty
  let entryCommission := |buyExec.execFee|
  let exitCommission := |sellExec.execFee|
  let totalCommission := entryCommission + exitCommission
  let quantity := min entryQty exitQty
  let grossPnl := (exitPrice - entryPrice) * quantity
  let netPnl := grossPnl - totalCommission
  let positionValue := entryPrice * quantity
  let pnlPct : ℚ := if positionValue > 0 then netPnl / positionValue * 100 else 0
  let botStr := match botId with | some b => b | none => "None"
  { tradeId := botStr ++ "_" ++ buyExec.symbol ++ "_" ++ toString buyExec.execTime
    botId := botId
    symbol := buyExec.symbol
    entryPrice := entryPrice
    exitPrice := exitPrice
    entryQty := entryQty
    exitQty := exitQty
    entryTimeMs := buyExec.execTime
    exitTimeMs := sellExec.execTime
    entryCommission := entryCommission
    exitCommission := exitCommission
    grossPnl := grossPnl
    netPnl := netPnl
    pnlPct := pnlPct }

/-- Python's `sorted(key=lambda x: int(x.get('execTime', 0)))`: a stable
ascending sort by execution time. -/
def sortByExecTime (l : List Exec) : List Exec :=
  List.insertionSort (fun a b => a.execTime ≤ b.execTime) l

/-- Scan `while sell_idx < len(sells_sorted)` inside
`TradeMatcher.match_fifo`: advance over the sells, permanently discarding
each sell not strictly after the buy, until a sell strictly after the buy is
found (returning it with the remaining suffix) or the sells run out. -/
def findNextSell (buyTime : ℕ) : List Exec → Option (Exec × List Exec)
  | [] => none
  | s :: rest =>
    if buyTime < s.execTime then some (s, rest) else findNextSell buyTime rest

/-- The outer `for buy_exec in buys_sorted` loop of `TradeMatcher.match_fifo`,
threading the shared `sell_idx` through `findNextSell`: when the sells are
exhausted every later buy also stays unmatched. -/
def matchGo : List Exec → List Exec → List (Exec × Exec)
  | [], _ => []
  | b :: bs, sells =>
    match findNextSell b.execTime sells with
    | none => matchGo bs []
    | some (s, rest) => (b, s) :: matchGo bs rest

/-- The buy/sell pairs matched by `TradeMatcher.match_fifo` (which sorts both
sides by execution time before pairing). -/
def matchFifoPairs (buys sells : List Exec) : List (Exec × Exec) :=
  matchGo (sortByExecTime buys) (sortByExecTime sells)

/-- Embedding of `TradeMatcher.match_fifo`: the matched-trade dictionaries produced from
the FIFO pairs. -/
def match_fifo (buys sells : List Exec) : List MatchedTrade :=
  (matchFifoPairs buys sells).map fun p => create_matched_trade p.1 p.2

/-- Spec-side pairing rule, written from the spec's words: take the earliest
remaining buy whose execution time strictly precedes the given sell's, if
any, removing it from the pool. -/
def pickBuy (sellTime : ℕ) : List Exec → Option (Exec × List Exec)
  | [] => none
  | b :: bs =>
    if b.execTime < sellTime then some (b, bs)
    else match pickBuy sellTime bs with
      | none => none
      | some (x, rest) => some (x, b :: rest)

/-- Spec-side matching, written from the spec's words: process the sells in
execution-time order; each sell is matched to the earliest buy whose
execution time strictly precedes the sell's and which has not yet been
consumed, each buy and each sell being consumed at most once. -/
def specMatchGo : List Exec → List Exec → List (Exec × Exec)
  | _, [] => []
  | buys, s :: ss =>
    match pickBuy s.execTime buys with
    | none => specMatchGo buys ss
    | some (b, rest) => (b, s) :: specMatchGo rest ss

/-- The spec's raw-fill matching over the time-sorted buy and sell lists. -/
def specMatchFifo (buys sells : List Exec) : List (Exec × Exec) :=
  specMatchGo (sortByExecTime buys) (sortByExecTime sells)

/-- The per-symbol buy list built by
`TradeMatcher.group_executions_by_symbol` (grouping preserves arrival
order). -/
def buysOf (symbol : String) (execs : List Exec) : List Exec :=
  execs.filter fun e => e.symbol = symbol ∧ e.side = "Buy"

/-- The per-symbol sell list built by
`TradeMatcher.group_executions_by_symbol`. -/
def sellsOf (symbol : String) (execs : List Exec) : List Exec :=
  execs.filter fun e => e.symbol = symbol ∧ e.side = "Sell"

end TradeMatcher

namespace ClosedPnLMapper

/-- Bybit closed-P&L record as read by
`ClosedPnLMapper.map_closed_pnl_to_trade` (the fields it uses). Timestamps
are Unix milliseconds. -/
structure ClosedPnlRecord where
  symbol : String
  orderId : Option String
  side : String
  closedSize : ℚ
  avgEntryPrice : ℚ
  avgExitPrice : ℚ
  closedPnl : ℚ
  cumEntryValue : ℚ
  openFee : ℚ
  closeFee : ℚ
  createdTime : ℕ
  updatedTime : ℕ
  orderLinkId : String
deriving DecidableEq, Repr

/-- Embedding of `ClosedPnLMapper.parse_order_link_id`: split on `':'`, two or more parts
give `(bot_id, reason)`, else `(None, None)`. -/
def parse_order_link_id (orderLinkId : Option String) :
    Option String × Option String :=
  match orderLinkId with
  | none => (none, none)
  | some s =>
    match PyStr.split ':' s with
    | p0 :: p1 :: _ => (some p0, some p1)
    | _ => (none, none)

/-- Embedding of `ClosedPnLMapper.map_closed_pnl_to_trade`: map one closed-P&L record to
the completed-trades schema. If the reported exit time is equal to or earlier
than the entry time, the exit time is replaced by entry time plus one second
and `updated_time_ms` is recomputed from it; the holding duration is
`int((updated_time_ms − created_time_ms) / 1000)`. The trade key is
`f"{bot_id}_{symbol}_{created_time_ms}"`. -/
def map_closed_pnl_to_trade (record : ClosedPnlRecord) (botId : String) :
    Platform.SyncTradeRow :=
  let createdTimeMs := record.createdTime
  let updatedTimeMs :=
    if record.updatedTime ≤ record.createdTime then record.createdTime + 1000
    else record.updatedTime
  let totalCommission := |record.openFee| + |record.closeFee|
  let grossPnl := record.closedPnl + totalCommission
  let netPnl := record.closedPnl
  let pnlPct : ℚ :=
    if record.cumEntryValue ≠ 0 then record.closedPnl / |record.cumEntryValue| * 100
    else 0
  let holdingDurationSeconds := (updatedTimeMs - createdTimeMs) / 1000
  let reason :=
    if record.orderLinkId = "" then none
    else (parse_order_link_id (some record.orderLinkId)).2
  let entrySide := if record.side = "Buy" then "Buy" else "Sell"
  let exitSide := if record.side = "Buy" then "Sell" else "Buy"
  let entryReason :=
    if record.side = "Buy" then
      match reason with | some r => r | none => "long_entry"
    else
      match reason with | some r => r | none => "short_entry"
  let exitReason := if record.side = "Buy" then "long_exit" else "short_exit"
  { tradeId := botId ++ "_" ++ record.symbol ++ "_" ++ toString createdTimeMs
    botId := some botId
    symbol := record.symbol
    entryOrderId := record.orderId
    entryClientOrderId := some record.orderLinkId
    entrySide := entrySide
    entryPrice := record.avgEntryPrice
    entryQty := record.closedSize
    entryTimeMs := createdTimeMs
    entryReason := some entryReason
    entryCommission := |record.openFee|
    exitOrderId := record.orderId
    exitClientOrderId := some record.orderLinkId
    exitSide := exitSide
    exitPrice := record.avgExitPrice
    exitQty := record.closedSize
    exitTimeMs := updatedTimeMs
    exitReason := some exitReason
    exitCommission := |record.closeFee|
    grossPnl := grossPnl
    netPnl := netPnl
    pnlPct := pnlPct
    totalCommission := totalCommission
    holdingDurationSeconds := holdingDurationSeconds
    source := "bybit_api"
    syncedAt := none }

end ClosedPnLMapper

namespace WebsocketListener

/-- The parse result of the listener's `parse_client_order_id`: a dict with
`bot_id`, `close_reason` and an optional `timestamp`. -/
structure ParsedTag where
  botId : String
  closeReason : String
  timestamp : Option String
deriving DecidableEq, Repr

/-- Embedding of `parse_client_order_id` in `src/websocket_listener/listener.py`: split the
tag on `':'`; two or more parts give `{bot_id: parts[0], close_reason:
parts[1], timestamp: parts[2] or None}`; otherwise the fallback
`{bot_id: 'unknown', close_reason: <the raw tag>, timestamp: None}`. The
function is total: every string produces a parse result. -/
def parse_client_order_id (clientOrderId : String) : ParsedTag :=
  match PyStr.split ':' clientOrderId with
  | p0 :: p1 :: rest => ⟨p0, p1, rest.head?⟩
  | _ => ⟨"unknown", clientOrderId, none⟩

/-- Execution event frame as read by `StreamHandler.handle_execution` (the
fields it uses). `execTime` is Unix milliseconds. -/
structure ExecEvent where
  orderId : Option String
  orderLinkId : String
  symbol : String
  side : String
  execPrice : ℚ
  execQty : ℚ
  execFee : ℚ
  execTime : ℕ
deriving DecidableEq, Repr

/-- Row of `trading.fills` as inserted by `StreamHandler.handle_execution`. -/
structure FillRow where
  botId : String
  symbol : String
  orderId : Option String
  clientOrderId : String
  side : String
  execPrice : ℚ
  execQty : ℚ
  execTimeMs : ℕ
  closeReason : String
  commission : ℚ
deriving DecidableEq, Repr

/-- Embedding of `StreamHandler.handle_execution`: parse the client order tag (recovering
`bot_id` and `close_reason`, with the `'unknown'` fallback) and append the
fill to `trading.fills`; the append happens for every event, whatever the
tag parse produced. -/
def handle_execution (fills : List FillRow) (data : ExecEvent) : List FillRow :=
  let parsed := parse_client_order_id data.orderLinkId
  fills ++
    [{ botId := parsed.botId
       symbol := data.symbol
       orderId := data.orderId
       clientOrderId := data.orderLinkId
       side := data.side
       execPrice := data.execPrice
       execQty := data.execQty
       execTimeMs := data.execTime
       closeReason := parsed.closeReason
       commission := data.execFee }]

end WebsocketListener

namespace Platform

/-- Ordering of position entries by entry time (the `ORDER BY entry_time ASC`
key). -/
def entryTimeLE (a b : PositionEntry) : Prop := a.entryTime ≤ b.entryTime

instance : DecidableRel entryTimeLE := fun a b => Int.decLe a.entryTime b.entryTime

instance : IsTotal PositionEntry entryTimeLE :=
  ⟨fun a b => Int.le_total a.entryTime b.entryTime⟩

instance : IsTrans PositionEntry entryTimeLE :=
  ⟨fun _ _ _ hab hbc => le_trans hab hbc⟩

lemma openEntries_sorted (table : List PositionEntry) :
    List.Sorted entryTimeLE (openEntries table) :=
  List.sorted_insertionSort _ _

lemma openEntries_rem_pos (table : List PositionEntry) :
    ∀ e ∈ openEntries table, 0 < e.remainingQty := by
  intro e he
  have hmem : e ∈ table.filter
      (fun e => decide (e.status ≠ LotStatus.closed ∧ 0 < e.remainingQty)) :=
    (List.perm_insertionSort _ _).mem_iff.mp he
  have := (List.mem_filter.mp hmem).2
  exact (of_decide_eq_true this).2

lemma closePositionFifo_eq (botId : String) (table : List PositionEntry)
    (symbol : String) (exitPrice closeQty : ℚ) (exitTime : ℤ)
    (exitCommission : ℚ) :
    closePositionFifo botId table symbol exitPrice closeQty exitTime
        exitCommission =
      closeFifoGo botId symbol exitPrice closeQty exitTime exitCommission
        closeQty (openEntries table) := by
  unfold closePositionFifo
  cases h : openEntries table with
  | nil => simp [closeFifoGo]
  | cons e es => simp

lemma closeFifoGo_slices_spec (botId symbol : String)
    (exitPrice closeQty : ℚ) (exitTime : ℤ) (exitCommission : ℚ)
    (es : List PositionEntry) (r : ℚ) :
    ((closeFifoGo botId symbol exitPrice closeQty exitTime exitCommission
        r es).slices.map fun sl => (sl.entryId, sl.quantity)) =
      specConsume r es := by
  induction es generalizing r with
  | nil => simp [closeFifoGo, specConsume]
  | cons e es ih =>
    by_cases hr : r ≤ 0
    · simp [closeFifoGo, specConsume, hr]
    · simp only [closeFifoGo, specConsume, hr, if_false, List.map_cons]
      exact congrArg _ (ih _)

lemma closeFifoGo_slices_prefix (botId symbol : String)
    (exitPrice closeQty : ℚ) (exitTime : ℤ) (exitCommission : ℚ)
    (es : List PositionEntry) (r : ℚ) :
    ((closeFifoGo botId symbol exitPrice closeQty exitTime exitCommission
        r es).slices.map CloseSlice.entryId) <+:
      (es.map PositionEntry.entryId) := by
  induction es generalizing r with
  | nil => simp [closeFifoGo]
  | cons e es ih =>
    by_cases hr : r ≤ 0
    · simp [closeFifoGo, hr]
    · simp only [closeFifoGo, hr, if_false, List.map_cons]
      obtain ⟨t, ht⟩ := ih (r - min e.remainingQty r)
      exact ⟨t, by simp [← ht]⟩

lemma entryRemSum_nonneg (es : List PositionEntry)
    (hrem : ∀ e ∈ es, 0 ≤ e.remainingQty) : 0 ≤ entryRemSum es := by
  apply List.sum_nonneg
  intro x hx
  obtain ⟨e, he, rfl⟩ := List.mem_map.mp hx
  exact hrem e he

lemma entryRemSum_pos (es : List PositionEntry) (hne : es ≠ [])
    (hrem : ∀ e ∈ es, 0 < e.remainingQty) : 0 < entryRemSum es := by
  cases es with
  | nil => exact absurd rfl hne
  | cons e es =>
    have h1 : 0 < e.remainingQty := hrem e (List.mem_cons_self _ _)
    have h2 : 0 ≤ entryRemSum es := entryRemSum_nonneg es
      (fun x hx => le_of_lt (hrem x (List.mem_cons_of_mem _ hx)))
    have : entryRemSum (e :: es) = e.remainingQty + entryRemSum es := by
      simp [entryRemSum]
    rw [this]
    positivity

lemma closeFifoGo_qty_sum (botId symbol : String)
    (exitPrice closeQty : ℚ) (exitTime : ℤ) (exitCommission : ℚ)
    (es : List PositionEntry) (r : ℚ) (hr0 : 0 ≤ r)
    (hrem : ∀ e ∈ es, 0 ≤ e.remainingQty) :
    sliceQtySum (closeFifoGo botId symbol exitPrice closeQty exitTime
        exitCommission r es).slices = min r (entryRemSum es) := by
  induction es generalizing r with
  | nil =>
    have h0 : entryRemSum ([] : List PositionEntry) = 0 := by simp [entryRemSum]
    rw [h0, min_eq_right hr0]
    simp [closeFifoGo, sliceQtySum]
  | cons e es ih =>
    have hT : 0 ≤ entryRemSum es := entryRemSum_nonneg es
      (fun x hx => hrem x (List.mem_cons_of_mem _ hx))
    have he : 0 ≤ e.remainingQty := hrem e (List.mem_cons_self _ _)
    have hsum : entryRemSum (e :: es) = e.remainingQty + entryRemSum es := by
      simp [entryRemSum]
    by_cases hr : r ≤ 0
    · have hr' : r = 0 := le_antisymm hr hr0
      subst hr'
      have hX : (0:ℚ) ≤ entryRemSum (e :: es) := by rw [hsum]; positivity
      rw [min_eq_left hX]
      simp [closeFifoGo, sliceQtySum]
    · have hstep : sliceQtySum (closeFifoGo botId symbol exitPrice closeQty
          exitTime exitCommission r (e :: es)).slices =
          min e.remainingQty r +
            sliceQtySum (closeFifoGo botId symbol exitPrice closeQty exitTime
              exitCommission (r - min e.remainingQty r) es).slices := by
        simp [closeFifoGo, hr, sliceQtySum]
      rw [hstep, ih _ (by simp [sub_nonneg, min_le_right]) (fun x hx =>
        hrem x (List.mem_cons_of_mem _ hx)), hsum]
      rcases le_total e.remainingQty r with h1 | h1
      · rw [min_eq_left h1, ← min_add_add_left, add_sub_cancel]
      · rw [min_eq_right h1, sub_self, min_eq_left hT, add_zero,
          min_eq_left (le_add_of_le_of_nonneg h1 hT)]

lemma closeFifoGo_rows_exitQty (botId symbol : String)
    (exitPrice closeQty : ℚ) (exitTime : ℤ) (exitCommission : ℚ)
    (es : List PositionEntry) (r : ℚ) :
    ((closeFifoGo botId symbol exitPrice closeQty exitTime exitCommission
        r es).rows.map CompletedTradeRow.exitQty) =
      ((closeFifoGo botId symbol exitPrice closeQty exitTime exitCommission
        r es).slices.map CloseSlice.quantity) := by
  induction es generalizing r with
  | nil => simp [closeFifoGo]
  | cons e es ih =>
    by_cases hr : r ≤ 0
    · simp [closeFifoGo, hr]
    · simp only [closeFifoGo, hr, if_false, List.map_cons]
      rw [ih]
      rfl

lemma closeFifoGo_rows_length (botId symbol : String)
    (exitPrice closeQty : ℚ) (exitTime : ℤ) (exitCommission : ℚ)
    (es : List PositionEntry) (r : ℚ) :
    (closeFifoGo botId symbol exitPrice closeQty exitTime exitCommission
        r es).rows.length =
      (closeFifoGo botId symbol exitPrice closeQty exitTime exitCommission
        r es).slices.length := by
  have := closeFifoGo_rows_exitQty botId symbol exitPrice closeQty exitTime
    exitCommission es r
  have h1 := congrArg List.length this
  simpa using h1

lemma closeFifoGo_rows_zip (botId symbol : String)
    (exitPrice closeQty : ℚ) (exitTime : ℤ) (exitCommission : ℚ)
    (es : List PositionEntry) (r : ℚ) (hcq : 0 < closeQty) :
    ∀ p ∈ ((closeFifoGo botId symbol exitPrice closeQty exitTime
        exitCommission r es).rows.zip es),
      p.1.entryPrice = p.2.entryPrice ∧
      p.1.exitPrice = exitPrice ∧
      p.1.grossPnl = (exitPrice - p.2.entryPrice) * p.1.exitQty ∧
      p.1.entryCommission =
        p.2.entryCommission * (p.1.exitQty / p.2.originalQty) ∧
      p.1.exitCommission = exitCommission * (p.1.exitQty / closeQty) ∧
      p.1.netPnl = p.1.grossPnl - p.1.entryCommission - p.1.exitCommission ∧
      p.1.pnlPct = (if p.2.entryPrice * p.1.exitQty > 0 then
        p.1.netPnl / (p.2.entryPrice * p.1.exitQty) * 100 else 0) := by
  induction es generalizing r with
  | nil => simp [closeFifoGo]
  | cons e es ih =>
    by_cases hr : r ≤ 0
    · simp [closeFifoGo, hr]
    · intro p hp
      simp only [closeFifoGo, hr, if_false, List.zip_cons_cons,
        List.mem_cons] at hp
      rcases hp with hp | hp
      · subst hp
        refine ⟨rfl, rfl, ?_, rfl, ?_, ?_, rfl⟩
        · simp [recordCompletedTradeCalc]
        · simp [recordCompletedTradeCalc, hcq]
        · simp [recordCompletedTradeCalc]
          ring
      · exact ih _ p hp

lemma closeFifoGo_row_net (botId symbol : String)
    (exitPrice closeQty : ℚ) (exitTime : ℤ) (exitCommission : ℚ)
    (es : List PositionEntry) (r : ℚ) :
    ∀ row ∈ (closeFifoGo botId symbol exitPrice closeQty exitTime
        exitCommission r es).rows,
      row.netPnl = (exitPrice - row.entryPrice) * row.exitQty -
        row.entryCommission - row.exitCommission := by
  induction es generalizing r with
  | nil => simp [closeFifoGo]
  | cons e es ih =>
    by_cases hr : r ≤ 0
    · simp [closeFifoGo, hr]
    · intro row hrow
      simp only [closeFifoGo, hr, if_false, List.mem_cons] at hrow
      rcases hrow with hrow | hrow
      · subst hrow
        simp [recordCompletedTradeCalc]
        ring
      · exact ih _ row hrow

lemma closeFifoGo_entries_nonneg (botId symbol : String)
    (exitPrice closeQty : ℚ) (exitTime : ℤ) (exitCommission : ℚ)
    (es : List PositionEntry) (r : ℚ)
    (hrem : ∀ e ∈ es, 0 ≤ e.remainingQty) :
    ∀ e' ∈ (closeFifoGo botId symbol exitPrice closeQty exitTime
        exitCommission r es).entries, 0 ≤ e'.remainingQty := by
  induction es generalizing r with
  | nil => simp [closeFifoGo]
  | cons e es ih =>
    by_cases hr : r ≤ 0
    · simpa [closeFifoGo, hr] using hrem
    · intro e' he'
      simp only [closeFifoGo, hr, if_false, List.mem_cons] at he'
      rcases he' with he' | he'
      · subst he'
        simp only [sub_nonneg]
        exact min_le_left _ _
      · exact ih _ (fun x hx => hrem x (List.mem_cons_of_mem _ hx)) e' he'

lemma closeFifoGo_all_closed (botId symbol : String)
    (exitPrice closeQty : ℚ) (exitTime : ℤ) (exitCommission : ℚ)
    (es : List PositionEntry) (r : ℚ)
    (hrem : ∀ e ∈ es, 0 < e.remainingQty) (hle : entryRemSum es ≤ r) :
    ∀ e' ∈ (closeFifoGo botId symbol exitPrice closeQty exitTime
        exitCommission r es).entries,
      e'.remainingQty = 0 ∧ e'.status = LotStatus.closed := by
  induction es generalizing r with
  | nil => simp [closeFifoGo]
  | cons e es ih =>
    have hsum : entryRemSum (e :: es) = e.remainingQty + entryRemSum es := by
      simp [entryRemSum]
    have hT : 0 ≤ entryRemSum es := entryRemSum_nonneg es
      (fun x hx => le_of_lt (hrem x (List.mem_cons_of_mem _ hx)))
    have hepos : 0 < e.remainingQty := hrem e (List.mem_cons_self _ _)
    have herle : e.remainingQty ≤ r := by
      calc e.remainingQty ≤ e.remainingQty + entryRemSum es :=
            le_add_of_nonneg_right hT
        _ ≤ r := hsum ▸ hle
    have hr : ¬ r ≤ 0 := not_le.mpr (lt_of_lt_of_le hepos herle)
    have hmin : min e.remainingQty r = e.remainingQty := min_eq_left herle
    have hle' : entryRemSum es ≤ r - e.remainingQty := by
      have h := hle
      rw [hsum] at h
      linarith
    intro e' he'
    simp only [closeFifoGo, hr, if_false, hmin, List.mem_cons] at he'
    rcases he' with he' | he'
    · subst he'
      simp
    · exact ih (r - e.remainingQty)
        (fun x hx => hrem x (List.mem_cons_of_mem _ hx)) hle' e' he'

lemma closeFifoGo_status_iff (botId symbol : String)
    (exitPrice closeQty : ℚ) (exitTime : ℤ) (exitCommission : ℚ)
    (es : List PositionEntry) (r : ℚ)
    (hrem : ∀ e ∈ es, 0 ≤ e.remainingQty) :
    ∀ p ∈ ((closeFifoGo botId symbol exitPrice closeQty exitTime
        exitCommission r es).entries.zip
          (closeFifoGo botId symbol exitPrice closeQty exitTime
            exitCommission r es).slices),
      (p.1.status = LotStatus.closed ↔ p.1.remainingQty = 0) ∧
      (p.1.status = LotStatus.partiallyClosed ↔ 0 < p.1.remainingQty) := by
  induction es generalizing r with
  | nil => simp [closeFifoGo]
  | cons e es ih =>
    by_cases hr : r ≤ 0
    · simp [closeFifoGo, hr]
    · intro p hp
      simp only [closeFifoGo, hr, if_false, List.zip_cons_cons,
        List.mem_cons] at hp
      rcases hp with hp | hp
      · subst hp
        have hnn : (0:ℚ) ≤ e.remainingQty - min e.remainingQty r := by
          simp only [sub_nonneg]
          exact min_le_left _ _
        by_cases hz : e.remainingQty - min e.remainingQty r = 0
        · simp [hz]
        · have hpos : 0 < e.remainingQty - min e.remainingQty r :=
            lt_of_le_of_ne hnn (Ne.symm hz)
          simp [hz, hpos]
      · exact ih _ (fun x hx => hrem x (List.mem_cons_of_mem _ hx)) p hp

lemma rows_net_sum (rows : List CompletedTradeRow) (xp : ℚ)
    (h : ∀ r ∈ rows, r.netPnl = (xp - r.entryPrice) * r.exitQty -
      r.entryCommission - r.exitCommission) :
    (rows.map CompletedTradeRow.netPnl).sum =
      xp * (rows.map CompletedTradeRow.exitQty).sum -
        ((rows.map fun r => r.entryPrice * r.exitQty).sum) -
        (rows.map CompletedTradeRow.entryCommission).sum -
        (rows.map CompletedTradeRow.exitCommission).sum := by
  induction rows with
  | nil => simp
  | cons r rows ih =>
    simp only [List.map_cons, List.sum_cons]
    rw [h r (List.mem_cons_self _ _),
      ih (fun x hx => h x (List.mem_cons_of_mem _ hx))]
    ring

lemma singleFullCloseNetPnl_eq (botId symbol : String)
    (rows : List CompletedTradeRow) (xp : ℚ)
    (hQ : (rows.map CompletedTradeRow.exitQty).sum ≠ 0)
    (h : ∀ r ∈ rows, r.netPnl = (xp - r.entryPrice) * r.exitQty -
      r.entryCommission - r.exitCommission) :
    (rows.map CompletedTradeRow.netPnl).sum =
      singleFullCloseNetPnl botId symbol rows xp := by
  rw [rows_net_sum rows xp h]
  simp [singleFullCloseNetPnl, recordCompletedTradeCalc]
  rw [sub_mul, div_mul_cancel₀ _ hQ]
  ring

lemma closeFifoGo_two_rows (botId symbol : String)
    (exitPrice closeQty : ℚ) (exitTime : ℤ) (exitCommission : ℚ)
    (l1 l2 : PositionEntry) (rest : List PositionEntry) (r : ℚ)
    (hr : 0 < r) (hlt : l1.remainingQty < r) :
    2 ≤ (closeFifoGo botId symbol exitPrice closeQty exitTime exitCommission
      r (l1 :: l2 :: rest)).rows.length := by
  have h1 : ¬ r ≤ 0 := not_le.mpr hr
  have hmin : min l1.remainingQty r = l1.remainingQty := min_eq_left hlt.le
  have h2 : ¬ r - min l1.remainingQty r ≤ 0 := by
    rw [hmin]
    simp only [not_le, sub_pos]
    exact hlt
  simp only [closeFifoGo, h1, if_false, h2, List.length_cons]
  omega

lemma closeFifoGo_entries_drop (botId symbol : String)
    (exitPrice closeQty : ℚ) (exitTime : ℤ) (exitCommission : ℚ)
    (es : List PositionEntry) (r : ℚ) :
    ((closeFifoGo botId symbol exitPrice closeQty exitTime exitCommission
        r es).entries.drop
      (closeFifoGo botId symbol exitPrice closeQty exitTime exitCommission
        r es).slices.length) =
      es.drop (closeFifoGo botId symbol exitPrice closeQty exitTime
        exitCommission r es).slices.length := by
  induction es generalizing r with
  | nil => simp [closeFifoGo]
  | cons e es ih =>
    by_cases hr : r ≤ 0
    · simp [closeFifoGo, hr]
    · simp only [closeFifoGo, hr, if_false, List.length_cons, List.drop_succ_cons]
      exact ih _

lemma closeFifoGo_three_lot (botId symbol : String)
    (exitPrice closeQty : ℚ) (exitTime : ℤ) (exitCommission : ℚ)
    (l1 l2 l3 : PositionEntry) (hq : 0 < closeQty)
    (hlt : closeQty < l1.remainingQty) :
    ((closeFifoGo botId symbol exitPrice closeQty exitTime exitCommission
        closeQty [l1, l2, l3]).slices.map fun sl => (sl.entryId, sl.quantity)) =
        [(l1.entryId, closeQty)] ∧
      (closeFifoGo botId symbol exitPrice closeQty exitTime exitCommission
          closeQty [l1, l2, l3]).entries =
        { l1 with remainingQty := l1.remainingQty - closeQty,
                  status := LotStatus.partiallyClosed } :: [l2, l3] := by
  have h1 : ¬ closeQty ≤ 0 := not_le.mpr hq
  have hmin : min l1.remainingQty closeQty = closeQty := min_eq_right hlt.le
  have hne : ¬ (l1.remainingQty - closeQty = 0) :=
    sub_ne_zero.mpr (ne_of_gt hlt)
  simp [closeFifoGo, h1, hmin, hne]

end Platform

section Scratch
open Platform

example :
    (closeFifoGo "b" "S" 120 12 1000 0 12
      [⟨"e1", 100, 10, 10, 1, 0, LotStatus.isOpen⟩,
       ⟨"e2", 110, 5, 5, 2, 0, LotStatus.isOpen⟩]).slices.map
        CloseSlice.quantity = [10, 2] := by
  norm_num [closeFifoGo, min_def]

example :
    (closeFifoGo "b" "S" 120 12 1000 0 12
      [⟨"e1", 100, 10, 10, 1, 0, LotStatus.isOpen⟩,
       ⟨"e2", 110, 5, 5, 2, 0, LotStatus.isOpen⟩]).slices.map
        CloseSlice.netPnl = [200, 20] := by
  norm_num [closeFifoGo, min_def]

example :
    (closeFifoGo "b" "S" 120 12 1000 0 12
      [⟨"e1", 100, 10, 10, 1, 0, LotStatus.isOpen⟩,
       ⟨"e2", 110, 5, 5, 2, 0, LotStatus.isOpen⟩]).entries.map
        PositionEntry.remainingQty = [0, 3] := by
  norm_num [closeFifoGo, min_def]

example :
    (closeFifoGo "b" "S" 120 12 1000 0 12
      [⟨"e1", 100, 10, 10, 1, 0, LotStatus.isOpen⟩,
       ⟨"e2", 110, 5, 5, 2, 0, LotStatus.isOpen⟩]).entries.map
        PositionEntry.status = [LotStatus.closed, LotStatus.partiallyClosed] := by
  norm_num [closeFifoGo, min_def]

-- a sell that is skipped while scanning for a later buy stays unmatched
example :
    (TradeMatcher.matchGo
      [⟨"S", "Buy", 10, 1, 1, 0, none, none⟩, ⟨"S", "Buy", 20, 1, 1, 0, none, none⟩]
      [⟨"S", "Sell", 15, 1, 1, 0, none, none⟩,
       ⟨"S", "Sell", 16, 1, 1, 0, none, none⟩]).map
        (fun p => (p.1.execTime, p.2.execTime)) = [(10, 15)] := by
  decide

example :
    (TradeMatcher.specMatchGo
      [⟨"S", "Buy", 10, 1, 1, 0, none, none⟩, ⟨"S", "Buy", 20, 1, 1, 0, none, none⟩]
      [⟨"S", "Sell", 15, 1, 1, 0, none, none⟩,
       ⟨"S", "Sell", 16, 1, 1, 0, none, none⟩]).map
        (fun p => (p.1.execTime, p.2.execTime)) = [(10, 15)] := by
  decide

-- interleaved times pair up FIFO
example :
    (TradeMatcher.matchGo
      [⟨"S", "Buy", 10, 1, 1, 0, none, none⟩, ⟨"S", "Buy", 12, 1, 1, 0, none, none⟩]
      [⟨"S", "Sell", 11, 1, 1, 0, none, none⟩,
       ⟨"S", "Sell", 13, 1, 1, 0, none, none⟩]).map
        (fun p => (p.1.execTime, p.2.execTime)) = [(10, 11), (12, 13)] := by
  decide

end Scratch

namespace Platform

/-- C1: Closing a quantity for a (bot, symbol) consumes open lots strictly
oldest-first by entry time (the fetched open-lot list is sorted ascending by
entry time and consumption follows the spec-side oldest-first rule, taking
`min(lot.remaining_qty, remaining_to_close)` from each consumed lot and
stopping as soon as the closing quantity is exhausted or no open lots
remain); the consumed lots form a prefix of the time-ordered open lots, the
total consumed quantity is `min(close_qty, total open)`, and for lots
entered at t1 < t2 < t3, closing a quantity smaller than lot 1's size
consumes only lot 1. -/
theorem fifo_close_consumes_oldest_first (botId : String)
    (table : List PositionEntry) (symbol : String)
    (exitPrice closeQty : ℚ) (exitTime : ℤ) (exitCommission : ℚ)
    (hq : 0 ≤ closeQty) :
    List.Sorted entryTimeLE (openEntries table) ∧
    ((closePositionFifo botId table symbol exitPrice closeQty exitTime
        exitCommission).slices.map fun sl => (sl.entryId, sl.quantity)) =
      specConsume closeQty (openEntries table) ∧
    ((closePositionFifo botId table symbol exitPrice closeQty exitTime
        exitCommission).slices.map CloseSlice.entryId) <+:
      ((openEntries table).map PositionEntry.entryId) ∧
    sliceQtySum (closePositionFifo botId table symbol exitPrice closeQty
        exitTime exitCommission).slices =
      min closeQty (entryRemSum (openEntries table)) ∧
    (∀ l1 l2 l3, openEntries table = [l1, l2, l3] →
      l1.entryTime < l2.entryTime → l2.entryTime < l3.entryTime →
      0 < closeQty → closeQty < l1.remainingQty →
      ((closePositionFifo botId table symbol exitPrice closeQty exitTime
          exitCommission).slices.map fun sl => (sl.entryId, sl.quantity)) =
          [(l1.entryId, closeQty)] ∧
        (closePositionFifo botId table symbol exitPrice closeQty exitTime
            exitCommission).entries =
          { l1 with remainingQty := l1.remainingQty - closeQty,
                    status := LotStatus.partiallyClosed } :: [l2, l3]) := by
  rw [closePositionFifo_eq]
  refine ⟨openEntries_sorted table, closeFifoGo_slices_spec _ _ _ _ _ _ _ _,
    closeFifoGo_slices_prefix _ _ _ _ _ _ _ _,
    closeFifoGo_qty_sum _ _ _ _ _ _ _ _ hq
      (fun e he => (openEntries_rem_pos table e he).le), ?_⟩
  intro l1 l2 l3 h3 _ _ hq' hlt
  rw [h3]
  exact closeFifoGo_three_lot botId symbol exitPrice closeQty exitTime
    exitCommission l1 l2 l3 hq' hlt

/-- Witness for C1 at a concrete three-lot table and a closing quantity
smaller than the first lot. -/
theorem fifo_close_consumes_oldest_first_witness :
    (0:ℚ) ≤ 4 ∧
    (List.Sorted entryTimeLE (openEntries
        [⟨"e1", 100, 10, 10, 1, 2, LotStatus.isOpen⟩,
         ⟨"e2", 110, 5, 5, 2, 1, LotStatus.isOpen⟩,
         ⟨"e3", 120, 8, 8, 3, 0, LotStatus.isOpen⟩]) ∧
      ((closePositionFifo "bot" [⟨"e1", 100, 10, 10, 1, 2, LotStatus.isOpen⟩,
         ⟨"e2", 110, 5, 5, 2, 1, LotStatus.isOpen⟩,
         ⟨"e3", 120, 8, 8, 3, 0, LotStatus.isOpen⟩] "BTCUSDT" 120 4 50
          3).slices.map fun sl => (sl.entryId, sl.quantity)) =
        specConsume 4 (openEntries
          [⟨"e1", 100, 10, 10, 1, 2, LotStatus.isOpen⟩,
           ⟨"e2", 110, 5, 5, 2, 1, LotStatus.isOpen⟩,
           ⟨"e3", 120, 8, 8, 3, 0, LotStatus.isOpen⟩]) ∧
      ((closePositionFifo "bot" [⟨"e1", 100, 10, 10, 1, 2, LotStatus.isOpen⟩,
         ⟨"e2", 110, 5, 5, 2, 1, LotStatus.isOpen⟩,
         ⟨"e3", 120, 8, 8, 3, 0, LotStatus.isOpen⟩] "BTCUSDT" 120 4 50
          3).slices.map CloseSlice.entryId) <+:
        ((openEntries
          [⟨"e1", 100, 10, 10, 1, 2, LotStatus.isOpen⟩,
           ⟨"e2", 110, 5, 5, 2, 1, LotStatus.isOpen⟩,
           ⟨"e3", 120, 8, 8, 3, 0, LotStatus.isOpen⟩]).map
            PositionEntry.entryId) ∧
      sliceQtySum (closePositionFifo "bot"
          [⟨"e1", 100, 10, 10, 1, 2, LotStatus.isOpen⟩,
           ⟨"e2", 110, 5, 5, 2, 1, LotStatus.isOpen⟩,
           ⟨"e3", 120, 8, 8, 3, 0, LotStatus.isOpen⟩] "BTCUSDT" 120 4 50
          3).slices =
        min 4 (entryRemSum (openEntries
          [⟨"e1", 100, 10, 10, 1, 2, LotStatus.isOpen⟩,
           ⟨"e2", 110, 5, 5, 2, 1, LotStatus.isOpen⟩,
           ⟨"e3", 120, 8, 8, 3, 0, LotStatus.isOpen⟩])) ∧
      (∀ l1 l2 l3, openEntries
          [⟨"e1", 100, 10, 10, 1, 2, LotStatus.isOpen⟩,
           ⟨"e2", 110, 5, 5, 2, 1, LotStatus.isOpen⟩,
           ⟨"e3", 120, 8, 8, 3, 0, LotStatus.isOpen⟩] = [l1, l2, l3] →
        l1.entryTime < l2.entryTime → l2.entryTime < l3.entryTime →
        (0:ℚ) < 4 → (4:ℚ) < l1.remainingQty →
        ((closePositionFifo "bot" [⟨"e1", 100, 10, 10, 1, 2, LotStatus.isOpen⟩,
           ⟨"e2", 110, 5, 5, 2, 1, LotStatus.isOpen⟩,
           ⟨"e3", 120, 8, 8, 3, 0, LotStatus.isOpen⟩] "BTCUSDT" 120 4 50
            3).slices.map fun sl => (sl.entryId, sl.quantity)) =
            [(l1.entryId, 4)] ∧
          (closePositionFifo "bot" [⟨"e1", 100, 10, 10, 1, 2, LotStatus.isOpen⟩,
             ⟨"e2", 110, 5, 5, 2, 1, LotStatus.isOpen⟩,
             ⟨"e3", 120, 8, 8, 3, 0, LotStatus.isOpen⟩] "BTCUSDT" 120 4 50
              3).entries =
            { l1 with remainingQty := l1.remainingQty - 4,
                      status := LotStatus.partiallyClosed } :: [l2, l3])) :=
  ⟨by norm_num,
   fifo_close_consumes_oldest_first "bot"
     [⟨"e1", 100, 10, 10, 1, 2, LotStatus.isOpen⟩,
      ⟨"e2", 110, 5, 5, 2, 1, LotStatus.isOpen⟩,
      ⟨"e3", 120, 8, 8, 3, 0, LotStatus.isOpen⟩] "BTCUSDT" 120 4 50 3
     (by norm_num)⟩

/-- C2: Every completed-trade row emitted for a consumed lot slice has
gross P&L `(exit_price − lot.entry_price) × qty_closed` (with the sign
inverted for short entry sides in the shared P&L calculator), entry
commission apportioned as `entry_commission × (qty_closed /
lot.original_qty)`, exit commission as `exit_commission × (qty_closed /
total_close_qty)`, net P&L equal to gross minus both apportioned
commissions, and P&L percent equal to `net / (entry_price × qty_closed) ×
100`, 0 when the cost basis is 0 (the calculator returns 0 whenever the
cost basis is not positive). -/
theorem fifo_close_slice_pnl (botId : String) (table : List PositionEntry)
    (symbol : String) (exitPrice closeQty : ℚ) (exitTime : ℤ)
    (exitCommission : ℚ) (hq : 0 < closeQty) :
    (∀ p ∈ ((closePositionFifo botId table symbol exitPrice closeQty exitTime
        exitCommission).rows.zip (openEntries table)),
      p.1.entryPrice = p.2.entryPrice ∧
      p.1.exitPrice = exitPrice ∧
      p.1.grossPnl = (exitPrice - p.2.entryPrice) * p.1.exitQty ∧
      p.1.entryCommission =
        p.2.entryCommission * (p.1.exitQty / p.2.originalQty) ∧
      p.1.exitCommission = exitCommission * (p.1.exitQty / closeQty) ∧
      p.1.netPnl = p.1.grossPnl - p.1.entryCommission - p.1.exitCommission ∧
      p.1.pnlPct = (if p.2.entryPrice * p.1.exitQty > 0 then
        p.1.netPnl / (p.2.entryPrice * p.1.exitQty) * 100 else 0)) ∧
    (∀ (b s : String) (p q : ℚ) (t0 : ℤ) (x xq : ℚ) (t1 : ℤ) (ec xc : ℚ),
      (recordCompletedTradeCalc b s Side.sell p q t0 Side.buy x xq t1
          ec xc).grossPnl =
        -(recordCompletedTradeCalc b s Side.buy p q t0 Side.sell x xq t1
          ec xc).grossPnl) := by
  rw [closePositionFifo_eq]
  refine ⟨closeFifoGo_rows_zip _ _ _ _ _ _ _ _ hq, ?_⟩
  intro b s p q t0 x xq t1 ec xc
  simp [recordCompletedTradeCalc]
  ring

/-- Witness for C2 at a concrete two-lot close spanning both lots. -/
theorem fifo_close_slice_pnl_witness :
    (0:ℚ) < 12 ∧
    ((∀ p ∈ ((closePositionFifo "bot"
        [⟨"a1", 100, 10, 10, 1, 2, LotStatus.isOpen⟩,
         ⟨"a2", 110, 5, 5, 2, 1, LotStatus.isOpen⟩] "ETHUSDT" 120 12 60
          3).rows.zip (openEntries
        [⟨"a1", 100, 10, 10, 1, 2, LotStatus.isOpen⟩,
         ⟨"a2", 110, 5, 5, 2, 1, LotStatus.isOpen⟩])),
      p.1.entryPrice = p.2.entryPrice ∧
      p.1.exitPrice = 120 ∧
      p.1.grossPnl = (120 - p.2.entryPrice) * p.1.exitQty ∧
      p.1.entryCommission =
        p.2.entryCommission * (p.1.exitQty / p.2.originalQty) ∧
      p.1.exitCommission = 3 * (p.1.exitQty / 12) ∧
      p.1.netPnl = p.1.grossPnl - p.1.entryCommission - p.1.exitCommission ∧
      p.1.pnlPct = (if p.2.entryPrice * p.1.exitQty > 0 then
        p.1.netPnl / (p.2.entryPrice * p.1.exitQty) * 100 else 0)) ∧
    (∀ (b s : String) (p q : ℚ) (t0 : ℤ) (x xq : ℚ) (t1 : ℤ) (ec xc : ℚ),
      (recordCompletedTradeCalc b s Side.sell p q t0 Side.buy x xq t1
          ec xc).grossPnl =
        -(recordCompletedTradeCalc b s Side.buy p q t0 Side.sell x xq t1
          ec xc).grossPnl)) :=
  ⟨by norm_num,
   fifo_close_slice_pnl "bot"
     [⟨"a1", 100, 10, 10, 1, 2, LotStatus.isOpen⟩,
      ⟨"a2", 110, 5, 5, 2, 1, LotStatus.isOpen⟩] "ETHUSDT" 120 12 60 3
     (by norm_num)⟩

/-- C3: A close emits one CompletedTrade row per consumed lot slice (a
close spanning several lots produces at least two rows), and the sum of net
P&L across the emitted rows equals the net P&L of an equivalent single full
close of the same total quantity at the same exit price (with the
quantity-weighted average entry price and the summed apportioned
commissions). -/
theorem fifo_close_row_per_slice_additive (botId : String)
    (table : List PositionEntry) (symbol : String)
    (exitPrice closeQty : ℚ) (exitTime : ℤ) (exitCommission : ℚ)
    (hq : 0 < closeQty) (hne : openEntries table ≠ []) :
    (closePositionFifo botId table symbol exitPrice closeQty exitTime
        exitCommission).rows.length =
      (closePositionFifo botId table symbol exitPrice closeQty exitTime
        exitCommission).slices.length ∧
    (∀ l1 l2 rest, openEntries table = l1 :: l2 :: rest →
      l1.remainingQty < closeQty →
      2 ≤ (closePositionFifo botId table symbol exitPrice closeQty exitTime
        exitCommission).rows.length) ∧
    ((closePositionFifo botId table symbol exitPrice closeQty exitTime
        exitCommission).rows.map CompletedTradeRow.netPnl).sum =
      singleFullCloseNetPnl botId symbol
        (closePositionFifo botId table symbol exitPrice closeQty exitTime
          exitCommission).rows exitPrice := by
  rw [closePositionFifo_eq]
  refine ⟨closeFifoGo_rows_length _ _ _ _ _ _ _ _, ?_, ?_⟩
  · intro l1 l2 rest h hlt
    rw [h]
    exact closeFifoGo_two_rows botId symbol exitPrice closeQty exitTime
      exitCommission l1 l2 rest closeQty hq hlt
  · apply singleFullCloseNetPnl_eq
    · have hsum := closeFifoGo_qty_sum botId symbol exitPrice closeQty
        exitTime exitCommission (openEntries table) closeQty hq.le
        (fun e he => (openEntries_rem_pos table e he).le)
      have hT : 0 < entryRemSum (openEntries table) :=
        entryRemSum_pos _ hne (openEntries_rem_pos table)
      rw [closeFifoGo_rows_exitQty]
      have : ((closeFifoGo botId symbol exitPrice closeQty exitTime
          exitCommission closeQty (openEntries table)).slices.map
            CloseSlice.quantity).sum =
          min closeQty (entryRemSum (openEntries table)) := hsum
      rw [this]
      exact ne_of_gt (lt_min hq hT)
    · exact closeFifoGo_row_net botId symbol exitPrice closeQty exitTime
        exitCommission (openEntries table) closeQty

/-- Witness for C3 at a concrete two-lot close spanning both lots. -/
theorem fifo_close_row_per_slice_additive_witness :
    ((0:ℚ) < 12 ∧ openEntries
        [⟨"b1", 100, 10, 10, 1, 2, LotStatus.isOpen⟩,
         ⟨"b2", 110, 5, 5, 2, 1, LotStatus.isOpen⟩] ≠ []) ∧
    ((closePositionFifo "bot"
        [⟨"b1", 100, 10, 10, 1, 2, LotStatus.isOpen⟩,
         ⟨"b2", 110, 5, 5, 2, 1, LotStatus.isOpen⟩] "SOLUSDT" 120 12 60
          3).rows.length =
      (closePositionFifo "bot"
        [⟨"b1", 100, 10, 10, 1, 2, LotStatus.isOpen⟩,
         ⟨"b2", 110, 5, 5, 2, 1, LotStatus.isOpen⟩] "SOLUSDT" 120 12 60
          3).slices.length ∧
    (∀ l1 l2 rest, openEntries
        [⟨"b1", 100, 10, 10, 1, 2, LotStatus.isOpen⟩,
         ⟨"b2", 110, 5, 5, 2, 1, LotStatus.isOpen⟩] = l1 :: l2 :: rest →
      l1.remainingQty < 12 →
      2 ≤ (closePositionFifo "bot"
        [⟨"b1", 100, 10, 10, 1, 2, LotStatus.isOpen⟩,
         ⟨"b2", 110, 5, 5, 2, 1, LotStatus.isOpen⟩] "SOLUSDT" 120 12 60
          3).rows.length) ∧
    ((closePositionFifo "bot"
        [⟨"b1", 100, 10, 10, 1, 2, LotStatus.isOpen⟩,
         ⟨"b2", 110, 5, 5, 2, 1, LotStatus.isOpen⟩] "SOLUSDT" 120 12 60
          3).rows.map CompletedTradeRow.netPnl).sum =
      singleFullCloseNetPnl "bot" "SOLUSDT"
        (closePositionFifo "bot"
          [⟨"b1", 100, 10, 10, 1, 2, LotStatus.isOpen⟩,
           ⟨"b2", 110, 5, 5, 2, 1, LotStatus.isOpen⟩] "SOLUSDT" 120 12 60
            3).rows 120) :=
  ⟨⟨by norm_num, by simp [openEntries]⟩,
   fifo_close_row_per_slice_additive "bot"
     [⟨"b1", 100, 10, 10, 1, 2, LotStatus.isOpen⟩,
      ⟨"b2", 110, 5, 5, 2, 1, LotStatus.isOpen⟩] "SOLUSDT" 120 12 60 3
     (by norm_num) (by simp [openEntries])⟩

/-- C6: If the requested closing quantity exceeds the total open
quantity, the excess is silently dropped: every open lot is fully consumed
(remaining quantity 0, status `closed`), no lot's remaining quantity ever
becomes negative, the total consumed quantity never exceeds the total open
quantity, and a consumed lot's status is `closed` exactly when its remaining
quantity reaches zero and `partially_closed` exactly when it stays
positive. -/
theorem fifo_close_overflow_clamps (botId : String)
    (table : List PositionEntry) (symbol : String)
    (exitPrice closeQty : ℚ) (exitTime : ℤ) (exitCommission : ℚ)
    (hq : 0 ≤ closeQty) :
    (∀ e' ∈ (closePositionFifo botId table symbol exitPrice closeQty exitTime
        exitCommission).entries, 0 ≤ e'.remainingQty) ∧
    (entryRemSum (openEntries table) ≤ closeQty →
      ∀ e' ∈ (closePositionFifo botId table symbol exitPrice closeQty exitTime
          exitCommission).entries,
        e'.remainingQty = 0 ∧ e'.status = LotStatus.closed) ∧
    (∀ p ∈ ((closePositionFifo botId table symbol exitPrice closeQty exitTime
        exitCommission).entries.zip
          (closePositionFifo botId table symbol exitPrice closeQty exitTime
            exitCommission).slices),
      (p.1.status = LotStatus.closed ↔ p.1.remainingQty = 0) ∧
      (p.1.status = LotStatus.partiallyClosed ↔ 0 < p.1.remainingQty)) ∧
    sliceQtySum (closePositionFifo botId table symbol exitPrice closeQty
        exitTime exitCommission).slices ≤ entryRemSum (openEntries table) := by
  rw [closePositionFifo_eq]
  refine ⟨closeFifoGo_entries_nonneg _ _ _ _ _ _ _ _
      (fun e he => (openEntries_rem_pos table e he).le), ?_,
    closeFifoGo_status_iff _ _ _ _ _ _ _ _
      (fun e he => (openEntries_rem_pos table e he).le), ?_⟩
  · intro hle
    exact closeFifoGo_all_closed botId symbol exitPrice closeQty exitTime
      exitCommission (openEntries table) closeQty (openEntries_rem_pos table)
      hle
  · rw [closeFifoGo_qty_sum botId symbol exitPrice closeQty exitTime
      exitCommission (openEntries table) closeQty hq
      (fun e he => (openEntries_rem_pos table e he).le)]
    exact min_le_right _ _

/-- Witness for C6 at a concrete table closed with an overflow quantity. -/
theorem fifo_close_overflow_clamps_witness :
    (0:ℚ) ≤ 99 ∧
    ((∀ e' ∈ (closePositionFifo "bot"
        [⟨"c1", 100, 10, 10, 1, 2, LotStatus.isOpen⟩,
         ⟨"c2", 110, 5, 5, 2, 1, LotStatus.isOpen⟩] "XRPUSDT" 120 99 60
          3).entries, 0 ≤ e'.remainingQty) ∧
    (entryRemSum (openEntries
        [⟨"c1", 100, 10, 10, 1, 2, LotStatus.isOpen⟩,
         ⟨"c2", 110, 5, 5, 2, 1, LotStatus.isOpen⟩]) ≤ 99 →
      ∀ e' ∈ (closePositionFifo "bot"
          [⟨"c1", 100, 10, 10, 1, 2, LotStatus.isOpen⟩,
           ⟨"c2", 110, 5, 5, 2, 1, LotStatus.isOpen⟩] "XRPUSDT" 120 99 60
            3).entries,
        e'.remainingQty = 0 ∧ e'.status = LotStatus.closed) ∧
    (∀ p ∈ ((closePositionFifo "bot"
        [⟨"c1", 100, 10, 10, 1, 2, LotStatus.isOpen⟩,
         ⟨"c2", 110, 5, 5, 2, 1, LotStatus.isOpen⟩] "XRPUSDT" 120 99 60
          3).entries.zip
            (closePositionFifo "bot"
              [⟨"c1", 100, 10, 10, 1, 2, LotStatus.isOpen⟩,
               ⟨"c2", 110, 5, 5, 2, 1, LotStatus.isOpen⟩] "XRPUSDT" 120 99 60
                3).slices),
      (p.1.status = LotStatus.closed ↔ p.1.remainingQty = 0) ∧
      (p.1.status = LotStatus.partiallyClosed ↔ 0 < p.1.remainingQty)) ∧
    sliceQtySum (closePositionFifo "bot"
        [⟨"c1", 100, 10, 10, 1, 2, LotStatus.isOpen⟩,
         ⟨"c2", 110, 5, 5, 2, 1, LotStatus.isOpen⟩] "XRPUSDT" 120 99 60
          3).slices ≤
      entryRemSum (openEntries
        [⟨"c1", 100, 10, 10, 1, 2, LotStatus.isOpen⟩,
         ⟨"c2", 110, 5, 5, 2, 1, LotStatus.isOpen⟩])) :=
  ⟨by norm_num,
   fifo_close_overflow_clamps "bot"
     [⟨"c1", 100, 10, 10, 1, 2, LotStatus.isOpen⟩,
      ⟨"c2", 110, 5, 5, 2, 1, LotStatus.isOpen⟩] "XRPUSDT" 120 99 60 3
     (by norm_num)⟩

/-- C7: For every non-empty set of open lots of a (bot, symbol), the
reconciliation-computed weighted-average entry price written to the
position cache is the quantity-weighted mean of entry prices over remaining
quantities; in particular for two lots of quantity q1 at price p1 and q2 at
price p2 it equals `(p1·q1 + p2·q2) / (q1 + q2)`. -/
theorem reconciliation_weighted_average_price (symbol : String)
    (entries : List PositionEntry) (exchangeSize : ℚ) (exchangeSide : String)
    (unrealisedPnl : ℚ) (hne : entries ≠ [])
    (hrem : ∀ e ∈ entries, 0 < e.remainingQty) :
    restorePositionFromExchange symbol entries exchangeSize exchangeSide
        unrealisedPnl =
      some ⟨symbol, exchangeSize, exchangeSide,
        ((entries.map fun e => e.entryPrice * e.remainingQty).sum) /
          entryRemSum entries, unrealisedPnl⟩ ∧
    (∀ l1 l2, entries = [l1, l2] →
      restorePositionFromExchange symbol entries exchangeSize exchangeSide
          unrealisedPnl =
        some ⟨symbol, exchangeSize, exchangeSide,
          (l1.entryPrice * l1.remainingQty + l2.entryPrice * l2.remainingQty) /
            (l1.remainingQty + l2.remainingQty), unrealisedPnl⟩) := by
  have hT : 0 < entryRemSum entries := entryRemSum_pos entries hne hrem
  have hmain : restorePositionFromExchange symbol entries exchangeSize
      exchangeSide unrealisedPnl =
      some ⟨symbol, exchangeSize, exchangeSide,
        ((entries.map fun e => e.entryPrice * e.remainingQty).sum) /
          entryRemSum entries, unrealisedPnl⟩ := by
    simp [restorePositionFromExchange, ne_of_gt hT]
  refine ⟨hmain, ?_⟩
  intro l1 l2 h2
  rw [hmain, h2]
  simp [entryRemSum]

end Platform

namespace TradeMatcher

lemma matchGo_nil_sells (bs : List Exec) : matchGo bs [] = [] := by
  induction bs with
  | nil => rfl
  | cons b bs ih => simp [matchGo, findNextSell, ih]

lemma specMatchGo_nil_buys (ss : List Exec) : specMatchGo [] ss = [] := by
  induction ss with
  | nil => rfl
  | cons s ss ih => simp [specMatchGo, pickBuy, ih]

lemma pickBuy_eq_none (t : ℕ) (l : List Exec)
    (h : ∀ x ∈ l, t ≤ x.execTime) : pickBuy t l = none := by
  induction l with
  | nil => rfl
  | cons b bs ih =>
    have hb : ¬ b.execTime < t := not_lt.mpr (h b (List.mem_cons_self _ _))
    simp [pickBuy, hb, ih (fun x hx => h x (List.mem_cons_of_mem _ hx))]

lemma matchGo_eq_specMatchGo (sells buys : List Exec)
    (hs : List.Sorted (fun a b : Exec => a.execTime ≤ b.execTime) buys) :
    matchGo buys sells = specMatchGo buys sells := by
  induction sells generalizing buys with
  | nil =>
    rw [matchGo_nil_sells]
    cases buys <;> rfl
  | cons s ss ih =>
    cases buys with
    | nil => rw [specMatchGo_nil_buys, matchGo]
    | cons b bs =>
      by_cases hb : b.execTime < s.execTime
      · have h1 : findNextSell b.execTime (s :: ss) = some (s, ss) := by
          simp [findNextSell, hb]
        have h2 : pickBuy s.execTime (b :: bs) = some (b, bs) := by
          simp [pickBuy, hb]
        rw [matchGo, h1, specMatchGo, h2]
        exact congrArg _ (ih bs (List.sorted_cons.mp hs).2)
      · have h1 : findNextSell b.execTime (s :: ss) =
            findNextSell b.execTime ss := by
          simp [findNextSell, hb]
        have h2 : pickBuy s.execTime (b :: bs) = none := by
          apply pickBuy_eq_none
          intro x hx
          rcases List.mem_cons.mp hx with hx | hx
          · subst hx
            exact not_lt.mp hb
          · exact le_trans (not_lt.mp hb) ((List.sorted_cons.mp hs).1 x hx)
        rw [specMatchGo, h2, ← ih (b :: bs) hs, matchGo, h1, matchGo]

lemma findNextSell_sublist (t : ℕ) (sells : List Exec) (s : Exec)
    (rest : List Exec) (h : findNextSell t sells = some (s, rest)) :
    (s :: rest).Sublist sells := by
  induction sells with
  | nil => simp [findNextSell] at h
  | cons s0 ss0 ih =>
    by_cases ht : t < s0.execTime
    · simp [findNextSell, ht] at h
      obtain ⟨h1, h2⟩ := h
      subst h1
      subst h2
      exact List.Sublist.refl _
    · simp only [findNextSell, ht, if_false] at h
      exact (ih h).cons _

lemma findNextSell_lt (t : ℕ) (sells : List Exec) (s : Exec)
    (rest : List Exec) (h : findNextSell t sells = some (s, rest)) :
    t < s.execTime := by
  induction sells with
  | nil => simp [findNextSell] at h
  | cons s0 ss0 ih =>
    by_cases ht : t < s0.execTime
    · simp [findNextSell, ht] at h
      obtain ⟨h1, _⟩ := h
      subst h1
      exact ht
    · simp only [findNextSell, ht, if_false] at h
      exact ih h

lemma matchGo_fst_sublist (buys sells : List Exec) :
    ((matchGo buys sells).map Prod.fst).Sublist buys := by
  induction buys generalizing sells with
  | nil => simp [matchGo]
  | cons b bs ih =>
    cases h : findNextSell b.execTime sells with
    | none =>
      simp only [matchGo, h]
      exact (ih []).cons _
    | some x =>
      obtain ⟨s, rest⟩ := x
      simp only [matchGo, h, List.map_cons]
      exact (ih rest).cons₂ _

lemma matchGo_snd_sublist (buys sells : List Exec) :
    ((matchGo buys sells).map Prod.snd).Sublist sells := by
  induction buys generalizing sells with
  | nil => simp [matchGo]
  | cons b bs ih =>
    cases h : findNextSell b.execTime sells with
    | none =>
      simp only [matchGo, h]
      have h0 : ((matchGo bs []).map Prod.snd) = [] :=
        List.sublist_nil.mp (ih [])
      rw [h0]
      exact List.nil_sublist _
    | some x =>
      obtain ⟨s, rest⟩ := x
      simp only [matchGo, h, List.map_cons]
      exact List.Sublist.trans ((ih rest).cons₂ _)
        (findNextSell_sublist _ _ _ _ h)

lemma matchGo_time_lt (buys sells : List Exec) :
    ∀ p ∈ matchGo buys sells, p.1.execTime < p.2.execTime := by
  induction buys generalizing sells with
  | nil => simp [matchGo]
  | cons b bs ih =>
    cases h : findNextSell b.execTime sells with
    | none =>
      simp only [matchGo, h]
      exact ih []
    | some x =>
      obtain ⟨s, rest⟩ := x
      simp only [matchGo, h, List.mem_cons]
      rintro p (hp | hp)
      · subst hp
        exact findNextSell_lt _ _ _ _ h
      · exact ih rest p hp

lemma sortByExecTime_sorted (l : List Exec) :
    List.Sorted (fun a b : Exec => a.execTime ≤ b.execTime)
      (sortByExecTime l) := by
  haveI : IsTotal Exec (fun a b : Exec => a.execTime ≤ b.execTime) :=
    ⟨fun a b => Nat.le_total a.execTime b.execTime⟩
  haveI : IsTrans Exec (fun a b : Exec => a.execTime ≤ b.execTime) :=
    ⟨fun _ _ _ hab hbc => le_trans hab hbc⟩
  exact List.sorted_insertionSort _ l

/-- C8: In raw-fill matching, for each symbol, after sorting the grouped
buy and sell fill lists by execution time, the pairing produced by
`match_fifo` is exactly the spec's rule — each sell is matched to the
earliest buy whose execution time strictly precedes the sell's and which has
not yet been consumed — with each buy and each sell consumed at most once
(the matched buys and sells are sublists of the respective sorted lists),
and every matched buy strictly precedes its sell. -/
theorem match_fifo_pairs_follow_spec (execs : List Exec) (symbol : String) :
    matchFifoPairs (buysOf symbol execs) (sellsOf symbol execs) =
      specMatchFifo (buysOf symbol execs) (sellsOf symbol execs) ∧
    ((matchFifoPairs (buysOf symbol execs) (sellsOf symbol execs)).map
        Prod.fst).Sublist (sortByExecTime (buysOf symbol execs)) ∧
    ((matchFifoPairs (buysOf symbol execs) (sellsOf symbol execs)).map
        Prod.snd).Sublist (sortByExecTime (sellsOf symbol execs)) ∧
    (∀ p ∈ matchFifoPairs (buysOf symbol execs) (sellsOf symbol execs),
      p.1.execTime < p.2.execTime) ∧
    match_fifo (buysOf symbol execs) (sellsOf symbol execs) =
      (specMatchFifo (buysOf symbol execs) (sellsOf symbol execs)).map
        fun p => create_matched_trade p.1 p.2 := by
  have heq : matchFifoPairs (buysOf symbol execs) (sellsOf symbol execs) =
      specMatchFifo (buysOf symbol execs) (sellsOf symbol execs) :=
    matchGo_eq_specMatchGo _ _ (sortByExecTime_sorted _)
  refine ⟨heq, matchGo_fst_sublist _ _, matchGo_snd_sublist _ _,
    matchGo_time_lt _ _, ?_⟩
  rw [match_fifo, heq]

end TradeMatcher

namespace Platform

/-- Witness for C7 at two concrete lots (10 @ 100 and 5 @ 110): average
entry price `(100·10 + 110·5) / 15 = 1550/15`. -/
theorem reconciliation_weighted_average_price_witness :
    ([(⟨"w1", 100, 10, 10, 1, 0, LotStatus.isOpen⟩ : PositionEntry),
      ⟨"w2", 110, 5, 5, 2, 0, LotStatus.isOpen⟩] ≠
        ([] : List PositionEntry)) ∧
    restorePositionFromExchange "ADAUSDT"
        [⟨"w1", 100, 10, 10, 1, 0, LotStatus.isOpen⟩,
         ⟨"w2", 110, 5, 5, 2, 0, LotStatus.isOpen⟩] 15 "Buy" 7 =
      some ⟨"ADAUSDT", 15, "Buy",
        (100 * 10 + 110 * 5) / (10 + 5), 7⟩ := by
  constructor
  · simp
  · have h := (reconciliation_weighted_average_price "ADAUSDT"
      [⟨"w1", 100, 10, 10, 1, 0, LotStatus.isOpen⟩,
       ⟨"w2", 110, 5, 5, 2, 0, LotStatus.isOpen⟩] 15 "Buy" 7
      (by simp) (by norm_num)).2
      ⟨"w1", 100, 10, 10, 1, 0, LotStatus.isOpen⟩
      ⟨"w2", 110, 5, 5, 2, 0, LotStatus.isOpen⟩ rfl
    simpa using h

end Platform

namespace WebsocketListener

/-- C9: Parsing the client order tag is total, an unparseable tag (fewer
than two `':'`-separated parts) maps the event to the bot identifier
`'unknown'`, and the fill is still appended to the ledger: handling an
execution event always appends exactly one fill, leaving the existing fills
untouched, and an unparseable tag makes that fill's bot id `'unknown'`. -/
theorem handle_execution_never_drops (fills : List FillRow)
    (data : ExecEvent) :
    (handle_execution fills data).length = fills.length + 1 ∧
    (handle_execution fills data).take fills.length = fills ∧
    (∀ s : String, (PyStr.split ':' s).length < 2 →
      (parse_client_order_id s).botId = "unknown") ∧
    ((PyStr.split ':' data.orderLinkId).length < 2 →
      (handle_execution fills data).map FillRow.botId =
        fills.map FillRow.botId ++ ["unknown"]) := by
  have hparse : ∀ s : String, (PyStr.split ':' s).length < 2 →
      (parse_client_order_id s).botId = "unknown" := by
    intro s h
    unfold parse_client_order_id
    cases hs : PyStr.split ':' s with
    | nil => rfl
    | cons p0 rest =>
      cases rest with
      | nil => rfl
      | cons p1 r2 =>
        rw [hs] at h
        simp at h
        omega
  refine ⟨by simp [handle_execution], ?_, hparse, ?_⟩
  · unfold handle_execution
    exact List.take_left _ _
  · intro h
    simp [handle_execution, hparse data.orderLinkId h]

/-- Witness for C9: a colon-free tag still produces exactly one appended
fill, attributed to bot `'unknown'`. -/
theorem handle_execution_never_drops_witness :
    (PyStr.split ':' "garbage").length < 2 ∧
    (handle_execution []
        ⟨none, "garbage", "BTCUSDT", "Sell", 5, 2, 0, 99⟩).map FillRow.botId =
      ([] : List FillRow).map FillRow.botId ++ ["unknown"] :=
  ⟨by decide,
   (handle_execution_never_drops []
     ⟨none, "garbage", "BTCUSDT", "Sell", 5, 2, 0, 99⟩).2.2.2 (by decide)⟩

end WebsocketListener

namespace ClosedPnLMapper

/-- C10 counterexample: The claim "the holding duration … is always
positive" fails: a closed-P&L record whose exit timestamp is 500 ms after
its entry timestamp is accepted unadjusted (exit is strictly after entry),
yet its holding duration truncates to 0 seconds. -/
theorem closed_pnl_holding_zero_counterexample :
    ¬ (0 < (map_closed_pnl_to_trade
        ⟨"BTCUSDT", none, "Buy", 1, 100, 101, 1, 100, 0, 0, 0, 500, ""⟩
        "bot").holdingDurationSeconds) ∧
    (map_closed_pnl_to_trade
        ⟨"BTCUSDT", none, "Buy", 1, 100, 101, 1, 100, 0, 0, 0, 500, ""⟩
        "bot").entryTimeMs <
      (map_closed_pnl_to_trade
        ⟨"BTCUSDT", none, "Buy", 1, 100, 101, 1, 100, 0, 0, 0, 500, ""⟩
        "bot").exitTimeMs := by
  constructor
  · decide
  · decide

/-- C10 amended: Every mapped closed-P&L trade has an exit time
strictly after its entry time; when the exchange reports an exit timestamp
equal to or earlier than the entry timestamp, the exit time is replaced by
entry time plus one second and the holding duration is recomputed from the
adjusted exit time (giving exactly 1 second); the holding duration is
positive whenever the reported timestamps are at least one second apart,
but truncates to 0 for a sub-second gap. -/
theorem closed_pnl_exit_after_entry (record : ClosedPnlRecord)
    (botId : String) :
    (map_closed_pnl_to_trade record botId).entryTimeMs <
      (map_closed_pnl_to_trade record botId).exitTimeMs ∧
    (record.updatedTime ≤ record.createdTime →
      (map_closed_pnl_to_trade record botId).holdingDurationSeconds = 1) ∧
    (record.createdTime + 1000 ≤ record.updatedTime →
      0 < (map_closed_pnl_to_trade record botId).holdingDurationSeconds) := by
  refine ⟨?_, ?_, ?_⟩
  · by_cases h : record.updatedTime ≤ record.createdTime
    · simp only [map_closed_pnl_to_trade, h, if_true]
      omega
    · simp only [map_closed_pnl_to_trade, h, if_false]
      omega
  · intro h
    simp only [map_closed_pnl_to_trade, h, if_true]
    simp
  · intro h
    have h' : ¬ record.updatedTime ≤ record.createdTime := by omega
    simp only [map_closed_pnl_to_trade, h', if_false]
    have h1000 : 1000 ≤ record.updatedTime - record.createdTime := by omega
    calc 0 < 1000 / 1000 := by norm_num
      _ ≤ (record.updatedTime - record.createdTime) / 1000 :=
        Nat.div_le_div_right h1000

/-- Witness for C10 (amended): a record whose reported exit precedes its
entry gets exactly one second of holding duration. -/
theorem closed_pnl_exit_after_entry_witness :
    (map_closed_pnl_to_trade
        ⟨"ETHUSDT", none, "Sell", 2, 50, 49, -1, 100, 0, 0, 2000, 1500, ""⟩
        "m").holdingDurationSeconds = 1 :=
  (closed_pnl_exit_after_entry
    ⟨"ETHUSDT", none, "Sell", 2, 50, 49, -1, 100, 0, 0, 2000, 1500, ""⟩
    "m").2.1 (by decide)

end ClosedPnLMapper

/-- C5 counterexample: The backfill mapper's trade key is
`f"{bot_id}_{symbol}_{created_time_ms}"`: two closed-P&L records with the
same entry timestamp but different exit timestamps receive the same key
(so the key does not uniquely identify (bot, symbol, entry ts, exit ts)),
and the live path's key for the same logical trade
(`bot:symbol:entry_s:exit_s`) differs from the backfill key, so the two
ingestion paths do not collapse to one record. -/
theorem trade_key_counterexample :
    (ClosedPnLMapper.map_closed_pnl_to_trade
        ⟨"BTCUSDT", none, "Buy", 1, 100, 110, 10, 100, 0, 0, 1000, 2000, ""⟩
        "bot").tradeId =
      (ClosedPnLMapper.map_closed_pnl_to_trade
        ⟨"BTCUSDT", none, "Buy", 1, 100, 120, 20, 100, 0, 0, 1000, 3000, ""⟩
        "bot").tradeId ∧
    (ClosedPnLMapper.map_closed_pnl_to_trade
        ⟨"BTCUSDT", none, "Buy", 1, 100, 110, 10, 100, 0, 0, 1000, 2000, ""⟩
        "bot").exitTimeMs ≠
      (ClosedPnLMapper.map_closed_pnl_to_trade
        ⟨"BTCUSDT", none, "Buy", 1, 100, 120, 20, 100, 0, 0, 1000, 3000, ""⟩
        "bot").exitTimeMs ∧
    Platform.alphaTradeId "bot" "BTCUSDT" 1 2 ≠
      (ClosedPnLMapper.map_closed_pnl_to_trade
        ⟨"BTCUSDT", none, "Buy", 1, 100, 110, 10, 100, 0, 0, 1000, 2000, ""⟩
        "bot").tradeId := by
  refine ⟨rfl, by decide, by decide⟩

/-- C5 amended: Only the live-path key is derived from all of (bot,
symbol, entry timestamp, exit timestamp); the closed-P&L backfill key and
the execution-matching key are deterministic in (bot, symbol, entry time in
milliseconds) alone — independent of the exit timestamp — while the live key
does change with the exit timestamp. -/
theorem trade_key_derivation :
    (∀ (r r' : ClosedPnLMapper.ClosedPnlRecord) (botId : String),
      r.symbol = r'.symbol → r.createdTime = r'.createdTime →
      (ClosedPnLMapper.map_closed_pnl_to_trade r botId).tradeId =
        (ClosedPnLMapper.map_closed_pnl_to_trade r' botId).tradeId) ∧
    (∀ (buyExec sellExec sellExec' : TradeMatcher.Exec),
      sellExec.orderLinkId = sellExec'.orderLinkId →
      (TradeMatcher.create_matched_trade buyExec sellExec).tradeId =
        (TradeMatcher.create_matched_trade buyExec sellExec').tradeId) ∧
    Platform.alphaTradeId "bot" "BTCUSDT" 1 2 ≠
      Platform.alphaTradeId "bot" "BTCUSDT" 1 3 := by
  refine ⟨?_, ?_, by decide⟩
  · intro r r' botId hsym hct
    simp [ClosedPnLMapper.map_closed_pnl_to_trade, hsym, hct]
  · intro buyExec sellExec sellExec' hlink
    simp [TradeMatcher.create_matched_trade, hlink]

/-- Witness for C5 (amended): the backfill key ignores a change of exit
timestamp at a concrete pair of records. -/
theorem trade_key_derivation_witness :
    (ClosedPnLMapper.map_closed_pnl_to_trade
        ⟨"SOLUSDT", none, "Buy", 1, 10, 11, 1, 10, 0, 0, 4000, 5000, ""⟩
        "w").tradeId =
      (ClosedPnLMapper.map_closed_pnl_to_trade
        ⟨"SOLUSDT", none, "Buy", 1, 10, 12, 2, 10, 0, 0, 4000, 9000, ""⟩
        "w").tradeId :=
  trade_key_derivation.1
    ⟨"SOLUSDT", none, "Buy", 1, 10, 11, 1, 10, 0, 0, 4000, 5000, ""⟩
    ⟨"SOLUSDT", none, "Buy", 1, 10, 12, 2, 10, 0, 0, 4000, 9000, ""⟩
    "w" rfl rfl

namespace Platform

/-- C4 counterexample: "On key conflict only synchronization metadata
is updated, never the financial fields of the existing record" fails for the
live client's upsert: a conflicting insert with a different exit price
overwrites the existing row's net P&L (5 becomes 7) while adding no row. -/
theorem record_completed_trade_upsert_counterexample :
    ((recordCompletedTradeUpsert
        [⟨"t1", "bot", "SOLUSDT", Side.buy, 100, 1, 10, 0, Side.sell, 105, 1,
          20, 0, 5, 5, 5, 0, 10⟩]
        ⟨"t1", "bot", "SOLUSDT", Side.buy, 100, 1, 10, 0, Side.sell, 107, 1,
          20, 0, 7, 7, 7, 0, 10⟩).map CompletedTradeRow.netPnl) = [7] ∧
    (⟨"t1", "bot", "SOLUSDT", Side.buy, 100, 1, 10, 0, Side.sell, 105, 1,
        20, 0, 5, 5, 5, 0, 10⟩ : CompletedTradeRow).netPnl = 5 ∧
    (recordCompletedTradeUpsert
        [⟨"t1", "bot", "SOLUSDT", Side.buy, 100, 1, 10, 0, Side.sell, 105, 1,
          20, 0, 5, 5, 5, 0, 10⟩]
        ⟨"t1", "bot", "SOLUSDT", Side.buy, 100, 1, 10, 0, Side.sell, 107, 1,
          20, 0, 7, 7, 7, 0, 10⟩).length = 1 := by
  refine ⟨by decide, by decide, by decide⟩

/-- C4 amended: Re-running a sync or re-ingesting an identical trade
produces zero additional CompletedTrade rows on both upsert paths. The sync
service's conflict update touches only the synchronization metadata
(`synced_at`, and `source` with an existing `'websocket'` source preserved),
never the financial fields; the live client's conflict update instead
overwrites the exit-side financial fields with the incoming values, which
leaves the table unchanged only when the re-ingested trade is identical. -/
theorem completed_trade_upsert_idempotent :
    (∀ (table : List SyncTradeRow) (trade : SyncTradeRow) (now : ℤ),
      table.any (fun r => r.tradeId = trade.tradeId) = true →
        (insertCompletedTrade table trade now).1.length = table.length ∧
        (insertCompletedTrade table trade now).2 = false ∧
        (insertCompletedTrade table trade now).1.map SyncTradeRow.financial =
          table.map SyncTradeRow.financial) ∧
    (∀ (table : List CompletedTradeRow) (row : CompletedTradeRow),
      table.any (fun r => r.tradeId = row.tradeId) = true →
        (recordCompletedTradeUpsert table row).length = table.length) ∧
    (∀ (table : List CompletedTradeRow) (row : CompletedTradeRow),
      row ∈ table → (∀ r ∈ table, r.tradeId = row.tradeId → r = row) →
        recordCompletedTradeUpsert table row = table) := by
  refine ⟨?_, ?_, ?_⟩
  · intro table trade now h
    refine ⟨by simp [insertCompletedTrade, h], by simp [insertCompletedTrade, h], ?_⟩
    simp only [insertCompletedTrade, h, if_true, List.map_map]
    apply List.map_congr_left
    intro r _
    by_cases hid : r.tradeId = trade.tradeId
    · simp [hid, SyncTradeRow.financial]
    · simp [hid]
  · intro table row h
    simp [recordCompletedTradeUpsert, h]
  · intro table row hmem huniq
    have hany : table.any (fun r => r.tradeId = row.tradeId) = true :=
      List.any_eq_true.mpr ⟨row, hmem, by simp⟩
    simp only [recordCompletedTradeUpsert, hany, if_true]
    conv_rhs => rw [← List.map_id table]
    apply List.map_congr_left
    intro r hr
    by_cases hid : r.tradeId = row.tradeId
    · have := huniq r hr hid
      subst this
      simp
    · simp [hid]

/-- Witness for C4 (amended): re-inserting an already-synced trade leaves
the sync table's financial fields unchanged, and re-ingesting an identical
trade leaves the live table unchanged. -/
theorem completed_trade_upsert_idempotent_witness :
    ((insertCompletedTrade
        [ClosedPnLMapper.map_closed_pnl_to_trade
          ⟨"BTCUSDT", none, "Buy", 1, 100, 110, 10, 100, 0, 0, 1000, 2000, ""⟩
          "bot"]
        (ClosedPnLMapper.map_closed_pnl_to_trade
          ⟨"BTCUSDT", none, "Buy", 1, 100, 110, 10, 100, 0, 0, 1000, 2000, ""⟩
          "bot") 99).1.map SyncTradeRow.financial =
      [ClosedPnLMapper.map_closed_pnl_to_trade
        ⟨"BTCUSDT", none, "Buy", 1, 100, 110, 10, 100, 0, 0, 1000, 2000, ""⟩
        "bot"].map SyncTradeRow.financial) ∧
    recordCompletedTradeUpsert
        [⟨"t9", "bot", "ADAUSDT", Side.buy, 3, 2, 11, 0, Side.sell, 4, 2,
          21, 0, 2, 2, 2, 0, 10⟩]
        ⟨"t9", "bot", "ADAUSDT", Side.buy, 3, 2, 11, 0, Side.sell, 4, 2,
          21, 0, 2, 2, 2, 0, 10⟩ =
      [⟨"t9", "bot", "ADAUSDT", Side.buy, 3, 2, 11, 0, Side.sell, 4, 2,
        21, 0, 2, 2, 2, 0, 10⟩] :=
  ⟨(completed_trade_upsert_idempotent.1
      [ClosedPnLMapper.map_closed_pnl_to_trade
        ⟨"BTCUSDT", none, "Buy", 1, 100, 110, 10, 100, 0, 0, 1000, 2000, ""⟩
        "bot"]
      (ClosedPnLMapper.map_closed_pnl_to_trade
        ⟨"BTCUSDT", none, "Buy", 1, 100, 110, 10, 100, 0, 0, 1000, 2000, ""⟩
        "bot") 99 (by simp)).2.2,
   completed_trade_upsert_idempotent.2.2
     [⟨"t9", "bot", "ADAUSDT", Side.buy, 3, 2, 11, 0, Side.sell, 4, 2,
       21, 0, 2, 2, 2, 0, 10⟩]
     ⟨"t9", "bot", "ADAUSDT", Side.buy, 3, 2, 11, 0, Side.sell, 4, 2,
       21, 0, 2, 2, 2, 0, 10⟩
     (by simp) (by intro r hr _; simpa using hr)⟩

end Platform
